import Mathlib

/-!
Verification of the bulk scheduling and position-extraction engine of
`cdbbulksearch.py`.

Python strings are modelled as `List Char`; the Python string operations used
by the code (`strip`, `split`, `partition`, `replace`, `join`, `isnumeric`)
are defined below with their Python semantics.  The chess rule engine
(`python-chess`) is an external collaborator: `load_epds` observes it only
through board construction, `push`, and the piece count, so the expansion is
parametrised by a `BoardModel`; a concrete model sufficient for the concrete
positions appearing here is provided as `chessModel`.
-/

set_option maxHeartbeats 1000000

deriving instance DecidableEq for Except

namespace CdbBulk

/-- Characters of a Python string: the model of strings used throughout. -/
abbrev Str := List Char

/-- Python `str.strip()`: remove leading and trailing whitespace. -/
def pyStrip (s : Str) : Str :=
  ((s.dropWhile Char.isWhitespace).reverse.dropWhile Char.isWhitespace).reverse

/-- Python `str.split()` with no argument: split on whitespace runs, dropping
empty pieces.  (Structured as a right fold: a non-whitespace character either
starts a new piece or extends the piece started by the next character.) -/
def pySplitWs : Str → List Str
  | [] => []
  | [c] => if c.isWhitespace then [] else [[c]]
  | c :: d :: cs =>
    if c.isWhitespace then pySplitWs (d :: cs)
    else if d.isWhitespace then [c] :: pySplitWs (d :: cs)
    else
      match pySplitWs (d :: cs) with
      | t :: ts => (c :: t) :: ts
      | [] => [[c]]

/-- Split a string at the first occurrence of `sep`: `some (a, b)` means
`s = a ++ sep ++ b` with `a` shortest possible; `none` means `sep` does not
occur in `s`. -/
def splitFirst (sep : Str) : Str → Option (Str × Str)
  | [] => if sep.isPrefixOf ([] : Str) then some ([], []) else none
  | c :: cs =>
    if sep.isPrefixOf (c :: cs) then some ([], (c :: cs).drop sep.length)
    else (splitFirst sep cs).map fun p => (c :: p.1, p.2)

/-- Python `str.partition(sep)` (for nonempty `sep`). -/
def pyPartition (s sep : Str) : Str × Str × Str :=
  match splitFirst sep s with
  | none => (s, [], [])
  | some (a, b) => (a, sep, b)

/-- Python `line.replace("startpos", new)`: replace every non-overlapping
occurrence of the literal `startpos`, scanning left to right
(`str.replace` specialised to the fixed pattern the code uses). -/
def replaceStartpos (new : Str) : Str → Str
  | 's' :: 't' :: 'a' :: 'r' :: 't' :: 'p' :: 'o' :: 's' :: rest =>
      new ++ replaceStartpos new rest
  | c :: cs => c :: replaceStartpos new cs
  | [] => []

/-- Python `str.isnumeric()` for the ASCII digits that occur in FEN move
counters. -/
def pyIsNumeric (s : Str) : Bool :=
  !s.isEmpty && s.all Char.isDigit

/-- Python `" ".join(fields)`. -/
def joinSpace : List Str → Str
  | [] => []
  | [f] => f
  | f :: fs => f ++ ' ' :: joinSpace fs

/-- `chess.STARTING_FEN`. -/
def STARTING_FEN : Str :=
  "rnbqkbnr/pppppppp/8/8/8/8/PPPPPPPP/RNBQKBNR w KQkq - 0 1".toList

/-- The move-token check of `load_epdlist`: `true` exactly when the Python
loop `break`s on the token `m`, i.e. when `m` is shorter than 4 or longer
than 5 characters, its square coordinates are not made of file letters `a`–`h`
and rank digits `1`–`8`, or a 5th character is not one of `qrbn`. -/
def isBadMoveToken (m : Str) : Bool :=
  match m with
  | a :: b :: c :: d :: rest =>
    !("abcdefgh".toList.contains a) || !("abcdefgh".toList.contains c) ||
    !("12345678".toList.contains b) || !("12345678".toList.contains d) ||
    (match rest with
     | [] => false
     | [p] => !("qrbn".toList.contains p)
     | _ => true)
  | _ => true

/-- The `" moves m1 m2 …"` suffix built by `load_epdlist` from the accepted
move tokens (`epdMoves` in the code), for a nonempty token list. -/
def movesSuffix (toks : List Str) : Str :=
  " moves".toList ++ (toks.map (fun m => ' ' :: m)).flatten

/-- An entry of the EPD list: the joined base fields, followed by the moves
suffix when at least one move token was accepted (`if epdMoves != " moves"`). -/
def renderEntry (base : Str) (toks : List Str) : Str :=
  if toks = [] then base else base ++ movesSuffix toks

/-- One line of `load_epdlist`: strip, drop empty and `#`-comment lines, cut at
the first `;`, substitute `startpos`, split off everything from the first
`moves` on, keep the first 6 whitespace fields (only 4 when the 5th and 6th are
not both numeric), and accept move tokens up to the first bad one. -/
def processLine (line : Str) : Option Str :=
  let line := pyStrip line
  if line = [] then none
  else if line.headI = '#' then none
  else
    let line := line.takeWhile (fun c => c ≠ ';')
    let line := replaceStartpos (STARTING_FEN.take (STARTING_FEN.length - 3)) line
    let parts := pyPartition line "moves".toList
    let fields := (pySplitWs parts.1).take 6
    let fields :=
      if fields.length = 6 ∧ ¬(pyIsNumeric (fields.getD 4 []) ∧ pyIsNumeric (fields.getD 5 []))
      then fields.take 4 else fields
    let toks := (pySplitWs parts.2.2).takeWhile (fun m => !isBadMoveToken m)
    some (renderEntry (joinSpace fields) toks)

/-- `load_epdlist`: the list of normalized entries, one per accepted line, in
file order.  The file contents are modelled as the list of its lines. -/
def load_epdlist (lines : List Str) : List Str :=
  lines.filterMap processLine

/-- The fixed endgame (tablebase) piece-count threshold, `CDB_EGTB` in the
code. -/
def CDB_EGTB : Nat := 7

/-- Interface of the chess rule engine as observed by `load_epds`: construct a
board from an EPD (`chess.Board(epd)`), play a UCI move
(`board.push(chess.Move.from_uci(m))`) — either of which may raise, modelled by
`Except` — and count the pieces on the board
(`chess.popcount(board.occupied)`). -/
structure BoardModel (B : Type) where
  ofEpd : Str → Except Str B
  push : B → Str → Except Str B
  popcount : B → Nat

/-- The line-expansion cutoff `not TBsearch and chess.popcount(board.occupied)
<= CDB_EGTB`. -/
def cutoffCond (M : BoardModel B) (TBsearch : Bool) (b : B) : Bool :=
  !TBsearch && decide (M.popcount b ≤ CDB_EGTB)

/-- A ply-window bound as computed in `load_epds`: `None` maps to `dflt`, a
negative value is offset by `n` (the length of `[None] + moves.split()`) and
clamped below at 0, and a non-negative value is clamped above at `n` — Python
slice arithmetic over a list of length `n`. -/
def clampPly (v : Option Int) (dflt : Nat) (n : Nat) : Nat :=
  match v with
  | none => dflt
  | some v => if v < 0 then (v + n).toNat else min v.toNat n

/-- The move iterations of the expansion loop in `load_epds` (plies `1, …`):
append the move to the descriptor and push it on the board, then check the
cutoff, then the ply window, then the past-the-window stop, in the order of the
code.  Returns the `(ply, descriptor)` pairs added to the set `epds`; a raised
exception propagates. -/
def expandMoves (M : BoardModel B) (TBsearch : Bool) (plyB plyE : Nat) :
    Str → B → Nat → List Str → Except Str (List (Nat × Str))
  | _, _, _, [] => .ok []
  | epd, b, ply, m :: ms =>
    match M.push b m with
    | .error e => .error e
    | .ok b2 =>
      let epd2 := epd ++ ' ' :: m
      if cutoffCond M TBsearch b2 then .ok []
      else if plyB ≤ ply ∧ ply < plyE then
        match expandMoves M TBsearch plyB plyE epd2 b2 (ply + 1) ms with
        | .error e => .error e
        | .ok rest => .ok ((ply, epd2) :: rest)
      else if plyE ≤ ply then .ok []
      else expandMoves M TBsearch plyB plyE epd2 b2 (ply + 1) ms

/-- Expansion of one entry of the EPD list given its already split base EPD and
move tokens: the `ply = 0` iteration (where `m is None`, so nothing is pushed
and `" moves"` is appended to the descriptor afterwards) followed by the move
iterations. -/
def expandLineCore (M : BoardModel B) (TBsearch : Bool) (plyBegin plyEnd : Option Int)
    (base : Str) (toks : List Str) : Except Str (List (Nat × Str)) :=
  let n := toks.length + 1
  let plyB := clampPly plyBegin 0 n
  let plyE := clampPly plyEnd n n
  match M.ofEpd base with
  | .error e => .error e
  | .ok b =>
    if cutoffCond M TBsearch b then .ok []
    else if plyB ≤ 0 ∧ 0 < plyE then
      match expandMoves M TBsearch plyB plyE (base ++ " moves".toList) b 1 toks with
      | .error e => .error e
      | .ok rest => .ok ((0, base) :: rest)
    else if plyE ≤ 0 then .ok []
    else expandMoves M TBsearch plyB plyE (base ++ " moves".toList) b 1 toks

/-- Expansion of one entry of the EPD list in `load_epds`: split off everything
from the first `" moves"` on, split the move tokens, and expand. -/
def expandLine (M : BoardModel B) (TBsearch : Bool) (plyBegin plyEnd : Option Int)
    (entry : Str) : Except Str (List (Nat × Str)) :=
  let parts := pyPartition entry " moves".toList
  expandLineCore M TBsearch plyBegin plyEnd parts.1 (pySplitWs parts.2.2)

/-- The `for epd in epdlist` loop of `load_epds`: expand every entry in order,
collecting the additions to the set `epds`; the first raised exception
propagates. -/
def expandAll (M : BoardModel B) (TBsearch : Bool) (plyBegin plyEnd : Option Int) :
    List Str → Except Str (List (Nat × Str))
  | [] => .ok []
  | e :: es =>
    match expandLine M TBsearch plyBegin plyEnd e with
    | .error err => .error err
    | .ok l =>
      match expandAll M TBsearch plyBegin plyEnd es with
      | .error err => .error err
      | .ok rest => .ok (l ++ rest)

/-- `load_epds` for a position-list input: normalize the lines, subtract the
optional exclude list (a set difference, modelled order-independently as a
deduplicated filtered list), expand every entry, and collect the added
descriptors into a set, modelled as a `dedup`-ed list.  Any exception raised by
the chess engine propagates out of the load. -/
def load_epds (M : BoardModel B) (lines : List Str) (excludeLines : Option (List Str))
    (plyBegin plyEnd : Option Int) (TBsearch : Bool) : Except Str (List Str) :=
  let epdlist := load_epdlist lines
  let epdlist :=
    match excludeLines with
    | none => epdlist
    | some ex => epdlist.dedup.filter (fun e => e ∉ load_epdlist ex)
  match expandAll M TBsearch plyBegin plyEnd epdlist with
  | .error err => .error err
  | .ok contribs => .ok (contribs.map Prod.snd).dedup

/-- The boards reached by pushing a sequence of moves in turn: the board after
`m1`, after `m1 m2`, and so on. -/
def pushTrace (M : BoardModel B) (b : B) : List Str → Except Str (List B)
  | [] => .ok []
  | m :: ms =>
    match M.push b m with
    | .error e => .error e
    | .ok b2 =>
      match pushTrace M b2 ms with
      | .error e => .error e
      | .ok rest => .ok (b2 :: rest)

/-- The payload of a successful `Except` computation (`[]` on an exception). -/
def okList (e : Except Str (List α)) : List α :=
  match e with
  | .ok l => l
  | .error _ => []

/-! ### A concrete chess-engine model

`python-chess` is an external collaborator; the model below reproduces the part
of its behaviour that `load_epds` observes on the positions considered in this
file: FEN board parsing (including its rejection of malformed position parts),
`Move.from_uci`'s rejection of degenerate moves, `push`'s assertion on a move
from an empty square, and the piece count.  `push` moves the source piece to
the destination square, capturing whatever stood there; castling rook movement
and en-passant pawn removal are not modelled (neither occurs in the concrete
lines used here, and only the piece count is observed). -/

/-- Piece characters accepted in a FEN position part. -/
def pieceChars : Str := "pnbrqkPNBRQK".toList

/-- A board: the occupied squares (0 = a1, …, 63 = h8) with their pieces. -/
abbrev ChessBoard := List (Nat × Char)

/-- Parse one FEN row at the given rank, tracking the current file and whether
the previous character was a digit (python-chess rejects two adjacent
digits and rows that do not span exactly 8 files). -/
def parseFenRow (rank : Nat) : Str → Nat → Bool → Except Str ChessBoard
  | [], file, _ => if file = 8 then .ok [] else .error "expected 8 columns".toList
  | c :: cs, file, lastDigit =>
    if '1' ≤ c ∧ c ≤ '8' then
      if lastDigit then .error "two subsequent digits".toList
      else parseFenRow rank cs (file + (c.toNat - '0'.toNat)) true
    else if c ∈ pieceChars then do
      let rest ← parseFenRow rank cs (file + 1) false
      .ok ((rank * 8 + file, c) :: rest)
    else .error "invalid character in position part".toList

/-- Parse the FEN rows (given top first, so row `i` is rank `7 - i`). -/
def parseFenRows : List Str → Nat → Except Str ChessBoard
  | [], _ => .ok []
  | r :: rs, i => do
    let a ← parseFenRow (7 - i) r 0 false
    let b ← parseFenRows rs (i + 1)
    .ok (a ++ b)

/-- Parse a FEN position part: 8 `/`-separated rows. -/
def parseBoardFen (s : Str) : Except Str ChessBoard :=
  let rows := s.splitOn '/'
  if rows.length = 8 then parseFenRows rows 0
  else .error "expected 8 rows".toList

/-- A castling field: `-` or castling-rights characters. -/
def validCastling (c : Str) : Bool :=
  c = ['-'] || (!c.isEmpty && c.all (fun x => x ∈ "KQkqABCDEFGHabcdefgh".toList))

/-- An en-passant field: `-` or a square name. -/
def validEp (c : Str) : Bool :=
  match c with
  | ['-'] => true
  | [f, r] => "abcdefgh".toList.contains f && "12345678".toList.contains r
  | _ => false

/-- Model of `chess.Board(epd)` (python-chess `set_fen`): the board part is
parsed strictly; the remaining up-to-five fields are optional but validated
(`set_fen` accepts missing trailing fields and rejects extra ones). -/
def chessOfEpd (s : Str) : Except Str ChessBoard :=
  match pySplitWs s with
  | [] => .error "empty fen".toList
  | boardPart :: rest =>
    if rest.length > 5 then .error "fen string has more parts than expected".toList
    else do
      let bd ← parseBoardFen boardPart
      let fieldsOk :=
        (match rest.getD 0 "w".toList with
         | ['w'] => true | ['b'] => true | _ => false)
        && validCastling (rest.getD 1 ['-'])
        && validEp (rest.getD 2 ['-'])
        && pyIsNumeric (rest.getD 3 ['0'])
        && pyIsNumeric (rest.getD 4 ['1'])
      if fieldsOk then .ok bd else .error "invalid fen field".toList

/-- Model of `chess.Move.from_uci(m)` followed by `board.push`: the piece on
the source square moves to the destination square, capturing whatever stood
there.  `from_uci` rejects a move whose source and destination square coincide;
`push` asserts that the source square is occupied. -/
def chessPush (bd : ChessBoard) (m : Str) : Except Str ChessBoard :=
  match m with
  | f :: r :: f2 :: r2 :: _ =>
    let src := (r.toNat - '1'.toNat) * 8 + (f.toNat - 'a'.toNat)
    let dst := (r2.toNat - '1'.toNat) * 8 + (f2.toNat - 'a'.toNat)
    if src = dst then .error "invalid uci".toList
    else
      match bd.lookup src with
      | none => .error "push expects move to be pseudo-legal".toList
      | some p => .ok ((dst, p) :: bd.filter (fun e => e.1 ≠ src ∧ e.1 ≠ dst))
  | _ => .error "invalid uci".toList

/-- The concrete chess-engine model. -/
def chessModel : BoardModel ChessBoard :=
  { ofEpd := chessOfEpd, push := chessPush, popcount := List.length }

/-! ### The scheduler loop

The main loop (`__main__`, lines 294–372) is modelled as a transition system.
A state records how many tasks have been submitted (`epdIdx` advancing),
the value of the `TaskCounter` (incremented on submit, decremented by the
`add_done_callback` hook when a future completes), the `tasks` deque of
submission indices, the currently awaited `task`, and the indices whose
reports have been printed, in print order. -/

/-- State of the scheduler loop. -/
structure SchedState where
  submitted : Nat
  inFlight : Nat
  pending : List Nat
  current : Option Nat
  emitted : List Nat
deriving DecidableEq

/-- Events of the scheduler loop with pool size `P` (`bulkConcurrency`):
submitting one task, guarded by `taskCounter.get() < 2 * args.bulkConcurrency`;
a future completing (the `taskCounter.dec` hook); popping the head of the
`tasks` deque into the awaited slot when none is awaited; and printing the
awaited task's result — or the error line when `future.result` raised — which
clears the awaited slot either way. -/
inductive SchedStep (P : Nat) : SchedState → SchedState → Prop
  | submit {s : SchedState} (h : s.inFlight < 2 * P) :
      SchedStep P s { s with submitted := s.submitted + 1, inFlight := s.inFlight + 1,
                             pending := s.pending ++ [s.submitted] }
  | complete {s : SchedState} (h : 0 < s.inFlight) :
      SchedStep P s { s with inFlight := s.inFlight - 1 }
  | takeHead {s : SchedState} {t : Nat} {rest : List Nat}
      (h1 : s.current = none) (h2 : s.pending = t :: rest) :
      SchedStep P s { s with current := some t, pending := rest }
  | report {s : SchedState} {t : Nat} (h : s.current = some t) :
      SchedStep P s { s with current := none, emitted := s.emitted ++ [t] }

/-- The initial scheduler state (`task, tasks = None, deque()`,
`taskCounter = 0`, nothing submitted or printed). -/
def schedInit : SchedState := ⟨0, 0, [], none, []⟩

/-- The states the scheduler loop can reach. -/
def SchedReachable (P : Nat) (s : SchedState) : Prop :=
  Relation.ReflTransGen (SchedStep P) schedInit s

/-! ### The worker invocation `wrapcdbsearch` -/

/-- Behaviour of one `cdbsearch.cdbsearch` call: the text it writes to
`sys.stdout` before finishing, and the exception message when it raises. -/
structure CollabBehaviour where
  output : Str
  raises : Option Str

/-- The line printed by `wrapcdbsearch` when the search raises
(`print(f' error: while searching EPD "{epd}" caught exception "{ex}"')`),
trailing newline included. -/
def errorLine (epd msg : Str) : Str :=
  " error: while searching EPD \"".toList ++ epd ++
    "\" caught exception \"".toList ++ msg ++ "\"\n".toList

/-- State of the Python output machinery: the contents of every writer object
by id, the next fresh id, and the id `sys.stdout` currently refers to. -/
structure PyIOState where
  chans : Nat → Str
  nextChan : Nat
  stdout : Nat

/-- `print`/`write` to the writer `sys.stdout` currently refers to. -/
def writeStdout (st : PyIOState) (text : Str) : PyIOState :=
  { st with chans := fun n => if n = st.stdout then st.chans n ++ text else st.chans n }

/-- `wrapcdbsearch`: save `sys.stdout`, redirect it to a fresh `StringIO`
buffer, run the search (which writes its output to `sys.stdout` and may
raise), print the error line on an exception, restore `sys.stdout`, and return
the buffer's contents. -/
def wrapcdbsearch (collab : CollabBehaviour) (epd : Str) (st : PyIOState) :
    Str × PyIOState :=
  let oldStdout := st.stdout
  let buf := st.nextChan
  let st1 : PyIOState :=
    { chans := fun n => if n = buf then [] else st.chans n,
      nextChan := st.nextChan + 1, stdout := buf }
  let st2 := writeStdout st1 collab.output
  let st3 :=
    match collab.raises with
    | none => st2
    | some msg => writeStdout st2 (errorLine epd msg)
  (st3.chans buf, { st3 with stdout := oldStdout })

/-! ### Cycle boundary: (re)loading the EPD list -/

/-- The cycle state at a cycle boundary: the current EPD list, the cursor, the
current depth limit and whether this is the first cycle. -/
structure CycleState where
  epds : List Str
  epdIdx : Nat
  depthLimit : Int
  first : Bool

/-- The cycle boundary of the scheduler loop (the `if first or args.forever`
branch, lines 298–323): when `first or args.reload`, attempt the load — on an
exception, re-raise it if this is the first cycle, otherwise report and keep
the old list — then set the depth limit (`args.depthLimit` on the first cycle,
incremented by one afterwards, clamped to `args.maxDepthLimit`) and reset the
cursor.  `loadResult` is the outcome of the `load_epds` call; an `Except.error`
result of the whole function is a fatal, propagated exception. -/
def cycleReload (reload : Bool) (argsDepth : Int) (maxDepth : Option Int)
    (loadResult : Except Str (List Str)) (s : CycleState) :
    Except Str CycleState :=
  let loaded : Except Str (List Str) :=
    if s.first || reload then
      match loadResult with
      | .ok l => .ok l
      | .error e => if s.first then .error e else .ok s.epds
    else .ok s.epds
  match loaded with
  | .error e => .error e
  | .ok epds =>
    let d : Int := if s.first then argsDepth else s.depthLimit + 1
    let d := match maxDepth with | none => d | some m => min d m
    .ok { epds := epds, epdIdx := 0, depthLimit := d, first := false }

/-! ## Theorems -/

/-- C2: throughout any run of the scheduler loop, the in-flight task counter
never exceeds `2 × bulkConcurrency`: it holds in every reachable state of the
submit/complete step relation, because a task is submitted only when the
counter is strictly below the ceiling. -/
theorem inflight_never_exceeds_ceiling (P : Nat) (s : SchedState)
    (h : SchedReachable P s) : s.inFlight ≤ 2 * P := by
  induction h with
  | refl => simp [schedInit]
  | tail _ hstep ih =>
    cases hstep with
    | submit h => simpa using h
    | complete h => simp; omega
    | takeHead h1 h2 => exact ih
    | report h => exact ih

/-- Witness for C2: the state after two submissions with pool size 1 is
reachable and satisfies the ceiling. -/
theorem inflight_never_exceeds_ceiling_witness :
    (SchedState.mk 2 2 [0, 1] none []).inFlight ≤ 2 * 1 :=
  inflight_never_exceeds_ceiling 1 _
    (Relation.ReflTransGen.tail
      (Relation.ReflTransGen.tail Relation.ReflTransGen.refl
        (SchedStep.submit (P := 1) (s := schedInit) (by decide)))
      (SchedStep.submit (P := 1) (s := ⟨1, 1, [0], none, []⟩) (by decide)))

/-- The queue invariant of the scheduler loop: the printed reports, the
awaited task and the queued tasks are — in this order — exactly the submission
indices `0, 1, …, submitted - 1`. -/
theorem sched_queue_inv (P : Nat) (s : SchedState) (h : SchedReachable P s) :
    s.emitted ++ s.current.toList ++ s.pending = List.range s.submitted := by
  induction h with
  | refl => simp [schedInit]
  | tail _ hstep ih =>
    cases hstep with
    | submit h =>
      simp only [List.range_succ, ← ih]
      simp
    | complete h => exact ih
    | takeHead h1 h2 =>
      simp only [h1, h2, Option.toList_none, List.nil_append, List.append_nil] at ih
      simpa using ih
    | report h =>
      simp only [h, Option.toList_some] at ih
      simpa using ih

/-- C3: results are emitted in strict submission order — in every reachable
scheduler state the emitted indices are exactly `0, 1, …` in order, so for any
`i < j` task `i`'s report precedes task `j`'s, whatever the completion order;
only the head of the FIFO `tasks` deque is ever reported. -/
theorem emission_in_submission_order (P : Nat) (s : SchedState)
    (h : SchedReachable P s) : s.emitted = List.range s.emitted.length := by
  have inv := sched_queue_inv P s h
  have hpref : s.emitted <+: List.range s.submitted :=
    ⟨s.current.toList ++ s.pending, by simpa [List.append_assoc] using inv⟩
  obtain ⟨t, ht⟩ := hpref
  have hlen : s.emitted.length ≤ s.submitted := by
    have := congrArg List.length ht
    simp at this
    omega
  calc s.emitted = (List.range s.submitted).take s.emitted.length := by
        rw [← ht, List.take_left]
    _ = List.range (s.emitted.length ⊓ s.submitted) := List.take_range _ _
    _ = List.range s.emitted.length := by rw [Nat.min_eq_left hlen]

/-- Witness for C3: the state after submitting, taking the head and reporting
is reachable, and its emission list is in submission order. -/
theorem emission_in_submission_order_witness :
    (SchedState.mk 1 1 [] none [0]).emitted =
      List.range (SchedState.mk 1 1 [] none [0]).emitted.length :=
  emission_in_submission_order 1 _
    (Relation.ReflTransGen.tail
      (Relation.ReflTransGen.tail
        (Relation.ReflTransGen.tail Relation.ReflTransGen.refl
          (SchedStep.submit (P := 1) (s := schedInit) (by decide)))
        (SchedStep.takeHead (P := 1) (s := ⟨1, 1, [0], none, []⟩) rfl rfl))
      (SchedStep.report (P := 1) (s := ⟨1, 1, [], some 0, []⟩) rfl))

/-- C8: a load failure is fatal exactly when it happens on the very first
load; an exception during a later reload leaves the run going with the
previous position set unchanged. -/
theorem load_failure_fatal_iff_first (reload : Bool) (argsDepth : Int)
    (maxDepth : Option Int) (loadRes : Except Str (List Str)) (s : CycleState) :
    ((cycleReload reload argsDepth maxDepth loadRes s).isOk = false ↔
      s.first = true ∧ loadRes.isOk = false)
    ∧ (s.first = false → loadRes.isOk = false →
        (cycleReload reload argsDepth maxDepth loadRes s).map CycleState.epds =
          .ok s.epds) := by
  cases hf : s.first <;> cases hl : loadRes <;> cases reload <;>
    simp [cycleReload, hf, Except.isOk, Except.toBool, Except.map]

/-- Witness for C8: a failing reload on a non-first cycle keeps the old EPD
list. -/
theorem load_failure_fatal_iff_first_witness :
    (cycleReload true 5 none (Except.error "boom".toList)
        (CycleState.mk [['x']] 3 5 false)).map CycleState.epds =
      Except.ok [['x']] :=
  (load_failure_fatal_iff_first true 5 none (Except.error "boom".toList)
    ⟨[['x']], 3, 5, false⟩).2 rfl rfl

/-- What `wrapcdbsearch` computes, provided `sys.stdout` refers to an existing
writer (so that the fresh buffer is distinct from it): the returned report is
the collaborator's captured output, with the error line appended when it
raised; `sys.stdout` is restored; the previous stdout's contents are
untouched. -/
theorem wrap_spec (collab : CollabBehaviour) (epd : Str) (st : PyIOState)
    (h : st.stdout < st.nextChan) :
    (collab.raises = none → (wrapcdbsearch collab epd st).1 = collab.output)
    ∧ (∀ msg, collab.raises = some msg →
        (wrapcdbsearch collab epd st).1 = collab.output ++ errorLine epd msg)
    ∧ (wrapcdbsearch collab epd st).2.stdout = st.stdout
    ∧ (wrapcdbsearch collab epd st).2.chans st.stdout = st.chans st.stdout := by
  have hb : st.stdout ≠ st.nextChan := Nat.ne_of_lt h
  cases hr : collab.raises <;>
    simp [wrapcdbsearch, writeStdout, hr, hb]

/-- C10: the worker invocation wrapper is total and preserves partial output —
for every collaborator behaviour it returns a report (never raises); when the
collaborator writes `W` and then raises, the report is exactly `W` followed by
the single error line; when it returns normally the report is exactly `W`; and
`sys.stdout` is restored to its prior value before returning. -/
theorem wrap_total_and_preserves_output (collab : CollabBehaviour) (epd : Str)
    (st : PyIOState) (h : st.stdout < st.nextChan) :
    (collab.raises = none → (wrapcdbsearch collab epd st).1 = collab.output)
    ∧ (∀ msg, collab.raises = some msg →
        (wrapcdbsearch collab epd st).1 = collab.output ++ errorLine epd msg)
    ∧ (wrapcdbsearch collab epd st).2.stdout = st.stdout :=
  ⟨(wrap_spec collab epd st h).1, (wrap_spec collab epd st h).2.1,
    (wrap_spec collab epd st h).2.2.1⟩

/-- Witness for C10: a collaborator that writes `out` and then raises `boom`
yields exactly the partial output followed by the error line, and stdout is
restored. -/
theorem wrap_total_and_preserves_output_witness :
    (wrapcdbsearch ⟨"out".toList, some "boom".toList⟩ "P".toList
        ⟨fun _ => [], 1, 0⟩).1 =
      "out".toList ++ errorLine "P".toList "boom".toList
    ∧ (wrapcdbsearch ⟨"out".toList, some "boom".toList⟩ "P".toList
        ⟨fun _ => [], 1, 0⟩).2.stdout = 0 :=
  ⟨(wrap_total_and_preserves_output ⟨"out".toList, some "boom".toList⟩
      "P".toList ⟨fun _ => [], 1, 0⟩ (by decide)).2.1 "boom".toList rfl,
    (wrap_total_and_preserves_output ⟨"out".toList, some "boom".toList⟩
      "P".toList ⟨fun _ => [], 1, 0⟩ (by decide)).2.2⟩

/-- C7 counterexample: for a collaborator that raises `timeout` on EPD `P`
having written nothing, the report returned by `wrapcdbsearch` is not the line
`error: while searching EPD "P" caught exception "timeout"` (with or without a
trailing newline): the line the code prints starts with a space. -/
theorem wrap_error_line_counterexample :
    (wrapcdbsearch ⟨[], some "timeout".toList⟩ "P".toList ⟨fun _ => [], 1, 0⟩).1 =
      " error: while searching EPD \"P\" caught exception \"timeout\"\n".toList
    ∧ (wrapcdbsearch ⟨[], some "timeout".toList⟩ "P".toList ⟨fun _ => [], 1, 0⟩).1 ≠
      "error: while searching EPD \"P\" caught exception \"timeout\"".toList
    ∧ (wrapcdbsearch ⟨[], some "timeout".toList⟩ "P".toList ⟨fun _ => [], 1, 0⟩).1 ≠
      "error: while searching EPD \"P\" caught exception \"timeout\"\n".toList := by
  refine ⟨rfl, by decide, by decide⟩

/-- C7 (amended): when the collaborator raises with message `M` on EPD `P`
(having written nothing), the worker invocation catches it and returns — never
re-raises — the single line ` error: while searching EPD "P" caught exception
"M"` (leading space and trailing newline included); and the scheduler treats
such a report like any other: reporting the awaited task is always a step that
clears the awaited slot and moves on to the next task. -/
theorem wrap_error_line_amended :
    (∀ (epd msg : Str) (st : PyIOState), st.stdout < st.nextChan →
      (wrapcdbsearch ⟨[], some msg⟩ epd st).1 = errorLine epd msg)
    ∧ (∀ (P : Nat) (s : SchedState) (t : Nat), s.current = some t →
        SchedStep P s { s with current := none, emitted := s.emitted ++ [t] }) := by
  constructor
  · intro epd msg st h
    simpa using (wrap_spec ⟨[], some msg⟩ epd st h).2.1 msg rfl
  · intro P s t h
    exact SchedStep.report h

/-- Witness for the amended C7: concrete error report and concrete scheduler
step past it. -/
theorem wrap_error_line_amended_witness :
    (wrapcdbsearch ⟨[], some "timeout".toList⟩ "P".toList ⟨fun _ => [], 1, 0⟩).1 =
      errorLine "P".toList "timeout".toList
    ∧ SchedStep 1 ⟨1, 1, [], some 0, []⟩ ⟨1, 1, [], none, [0]⟩ :=
  ⟨wrap_error_line_amended.1 "P".toList "timeout".toList ⟨fun _ => [], 1, 0⟩
      (by decide),
    wrap_error_line_amended.2 1 ⟨1, 1, [], some 0, []⟩ 0 rfl⟩

/-- The 4-field starting position produced by the `startpos` substitution
(`load_epdlist` drops the `0 1` move counters). -/
def startFen4 : Str :=
  "rnbqkbnr/pppppppp/8/8/8/8/PPPPPPPP/RNBQKBNR w KQkq -".toList

/-- C1 counterexample: on the single line `startpos moves e2e4 e7e5` with
`plyBegin = 0, plyEnd = None`, the extracted set has three descriptors, but
the ply-0 descriptor is the bare base position with no trailing `" moves"`:
neither `<startfen4> moves` nor `<full startfen> moves` is in the set. -/
theorem ply0_descriptor_counterexample :
    load_epds chessModel ["startpos moves e2e4 e7e5".toList] none (some 0) none false =
      .ok [startFen4, startFen4 ++ " moves e2e4".toList,
        startFen4 ++ " moves e2e4 e7e5".toList]
    ∧ (startFen4 ++ " moves".toList) ∉
        [startFen4, startFen4 ++ " moves e2e4".toList,
          startFen4 ++ " moves e2e4 e7e5".toList]
    ∧ (STARTING_FEN ++ " moves".toList) ∉
        [startFen4, startFen4 ++ " moves e2e4".toList,
          startFen4 ++ " moves e2e4 e7e5".toList] := by
  refine ⟨by decide, by decide, by decide⟩

/-- C1 (amended): on the single line `startpos moves e2e4 e7e5` with
`plyBegin = 0, plyEnd = None`, extraction returns exactly the three-element set
`{ <startfen4>, <startfen4> moves e2e4, <startfen4> moves e2e4 e7e5 }`, where
`<startfen4>` is the 4-field standard initial position: the ply-0 descriptor is
the bare base position without a `" moves"` suffix. -/
theorem ply0_descriptor_amended :
    (load_epds chessModel ["startpos moves e2e4 e7e5".toList] none (some 0) none
        false).map List.toFinset =
      .ok {startFen4, startFen4 ++ " moves e2e4".toList,
        startFen4 ++ " moves e2e4 e7e5".toList} := by
  decide

/-- A clamped ply bound never exceeds the list length it is clamped to. -/
theorem clampPly_le (v : Option Int) (dflt n : Nat) (hd : dflt ≤ n) :
    clampPly v dflt n ≤ n := by
  cases v with
  | none => simpa [clampPly] using hd
  | some v =>
    simp only [clampPly]
    split
    · omega
    · omega

/-- Counting lemma for the move loop: when every board along the line is
playable and never meets the cutoff, the loop adds exactly the plies of
`[plyB, plyE)` lying in `[p, p + ms.length)`. -/
theorem expandMoves_count (M : BoardModel B) (TB : Bool) (plyB plyE : Nat)
    (epd : Str) (b : B) (p : Nat) (ms : List Str) (bs : List B)
    (htr : pushTrace M b ms = .ok bs)
    (hnc : ∀ x ∈ bs, cutoffCond M TB x = false) :
    ∃ l, expandMoves M TB plyB plyE epd b p ms = .ok l ∧
      l.length = min plyE (p + ms.length) - max plyB p := by
  induction ms generalizing epd b p bs with
  | nil =>
    refine ⟨[], rfl, ?_⟩
    simp only [List.length_nil, Nat.add_zero]
    omega
  | cons m ms ih =>
    cases hp : M.push b m with
    | error e => simp [pushTrace, hp] at htr
    | ok b2 =>
      cases ht2 : pushTrace M b2 ms with
      | error e => simp [pushTrace, hp, ht2] at htr
      | ok rest =>
        have hbs : bs = b2 :: rest := by
          simpa [pushTrace, hp, ht2] using htr.symm
        subst hbs
        have hc2 : cutoffCond M TB b2 = false := hnc b2 (by simp)
        have hrest : ∀ x ∈ rest, cutoffCond M TB x = false :=
          fun x hx => hnc x (by simp [hx])
        by_cases hw : plyB ≤ p ∧ p < plyE
        · obtain ⟨l2, hl2, hlen⟩ := ih (epd ++ ' ' :: m) b2 (p + 1) rest ht2 hrest
          refine ⟨(p, epd ++ ' ' :: m) :: l2, ?_, ?_⟩
          · simp [expandMoves, hp, hc2, hw, hl2]
          · simp only [List.length_cons, hlen, List.length_cons]
            omega
        · by_cases he : plyE ≤ p
          · refine ⟨[], ?_, ?_⟩
            · simp [expandMoves, hp, hc2, hw, he]
            · simp
              omega
          · obtain ⟨l2, hl2, hlen⟩ := ih (epd ++ ' ' :: m) b2 (p + 1) rest ht2 hrest
            refine ⟨l2, ?_, ?_⟩
            · simp [expandMoves, hp, hc2, hw, he, hl2]
            · simp only [hlen, List.length_cons]
              omega

/-- Counting lemma for a whole line: when the base position parses, every move
is playable and the cutoff never triggers, the line contributes exactly
`plyE - plyB` descriptors, where the window bounds are the Python-slice clamps
over the `toks.length + 1` ply positions. -/
theorem expandLineCore_count (M : BoardModel B) (TB : Bool)
    (plyBegin plyEnd : Option Int) (base : Str) (toks : List Str)
    (b : B) (bs : List B) (h0 : M.ofEpd base = .ok b)
    (htr : pushTrace M b toks = .ok bs)
    (hnc : ∀ x ∈ b :: bs, cutoffCond M TB x = false) :
    ∃ l, expandLineCore M TB plyBegin plyEnd base toks = .ok l ∧
      l.length = clampPly plyEnd (toks.length + 1) (toks.length + 1)
                  - clampPly plyBegin 0 (toks.length + 1) := by
  have hc0 : cutoffCond M TB b = false := hnc b (by simp)
  have hrest : ∀ x ∈ bs, cutoffCond M TB x = false :=
    fun x hx => hnc x (by simp [hx])
  set n := toks.length + 1 with hn
  set plyB := clampPly plyBegin 0 n with hB
  set plyE := clampPly plyEnd n n with hE
  have hBn : plyB ≤ n := clampPly_le plyBegin 0 n (by omega)
  have hEn : plyE ≤ n := clampPly_le plyEnd n n (by omega)
  by_cases hw : plyB ≤ 0 ∧ 0 < plyE
  · obtain ⟨l2, hl2, hlen⟩ :=
      expandMoves_count M TB plyB plyE (base ++ " moves".toList) b 1 toks bs htr hrest
    have hl2b : expandMoves M TB plyB plyE (base ++ [' ', 'm', 'o', 'v', 'e', 's'])
        b 1 toks = Except.ok l2 := hl2
    refine ⟨(0, base) :: l2, ?_, ?_⟩
    · simp [expandLineCore, h0, hc0, ← hB, ← hE, ← hn, hw, hl2b]
    · simp only [List.length_cons, hlen]
      omega
  · by_cases he : plyE ≤ 0
    · refine ⟨[], ?_, ?_⟩
      · simp [expandLineCore, h0, hc0, ← hB, ← hE, ← hn, hw, he]
      · simp only [List.length_nil]
        omega
    · obtain ⟨l2, hl2, hlen⟩ :=
        expandMoves_count M TB plyB plyE (base ++ " moves".toList) b 1 toks bs htr hrest
      have hl2b : expandMoves M TB plyB plyE (base ++ [' ', 'm', 'o', 'v', 'e', 's'])
          b 1 toks = Except.ok l2 := hl2
      refine ⟨l2, ?_, ?_⟩
      · simp [expandLineCore, h0, hc0, ← hB, ← hE, ← hn, hw, he, hl2b]
        omega
      · simp only [hlen]
        omega

/-- C4 counterexample: line `startpos moves e2e4` (move-sequence length
`L = 1`), `plyBegin = 0`, `plyEnd = 2`, cutoff never triggering — the line
contributes 2 descriptors, but `clamp(plyEnd,0,L) - clamp(plyBegin,0,L)` is
`1`. -/
theorem window_count_counterexample :
    (expandLineCore chessModel false (some 0) (some 2) startFen4
        ["e2e4".toList]).map List.length = .ok 2
    ∧ max 0 (min 2 1) - max 0 (min 0 1) ≠ (2 : Int) := by
  refine ⟨by decide, by decide⟩

/-- C4 (amended): for every line with move sequence `toks` and every pair
`plyBegin ≤ plyEnd`, when the base position parses, every move is playable and
the tablebase cutoff never triggers on the line, the number of descriptors the
line contributes (before cross-line deduplication) is the truncated difference
`clamp(plyEnd) - clamp(plyBegin)` of the Python-slice clamps over
`[0, toks.length + 1]` — the window is clamped to the `L + 1` ply positions of
the line (negative bounds offset by `L + 1`), not to `[0, L]`. -/
theorem window_count_amended (M : BoardModel B) (TB : Bool) (pb pe : Int)
    (_hle : pb ≤ pe) (base : Str) (toks : List Str) (b : B) (bs : List B)
    (h0 : M.ofEpd base = .ok b) (htr : pushTrace M b toks = .ok bs)
    (hnc : ∀ x ∈ b :: bs, cutoffCond M TB x = false) :
    (expandLineCore M TB (some pb) (some pe) base toks).map List.length =
      .ok (clampPly (some pe) (toks.length + 1) (toks.length + 1)
            - clampPly (some pb) 0 (toks.length + 1)) := by
  obtain ⟨l, hl, hlen⟩ :=
    expandLineCore_count M TB (some pb) (some pe) base toks b bs h0 htr hnc
  simp [hl, Except.map, hlen]

/-- Witness for the amended C4: the one-move line `K7/8/8/8/8/8/8/k7 w - -`
`a8b8` with `TBsearch` set, `plyBegin = 0`, `plyEnd = 2` contributes exactly
2 descriptors. -/
theorem window_count_amended_witness :
    (expandLineCore chessModel true (some 0) (some 2)
        "K7/8/8/8/8/8/8/k7 w - -".toList ["a8b8".toList]).map List.length =
      .ok 2 :=
  window_count_amended chessModel true 0 2 (by decide)
    "K7/8/8/8/8/8/8/k7 w - -".toList ["a8b8".toList]
    [(56, 'K'), (0, 'k')] [[(57, 'K'), (0, 'k')]]
    (by decide) (by decide) (by decide)

/-- Cutoff lemma for the move loop: when the board after the `(k+1)`-st move of
the remaining sequence meets the cutoff, the loop only adds plies strictly
before `p + k` — it stops no later than the cutoff ply, whatever the window. -/
theorem expandMoves_cutoff (M : BoardModel B) (TB : Bool) (plyB plyE : Nat)
    (epd : Str) (b : B) (p : Nat) (ms : List Str) (bs : List B) (k : Nat) (bk : B)
    (htr : pushTrace M b ms = .ok bs) (hk : bs.get? k = some bk)
    (hc : cutoffCond M TB bk = true) :
    ∃ l, expandMoves M TB plyB plyE epd b p ms = .ok l ∧
      ∀ x ∈ l, x.1 < p + k := by
  induction ms generalizing epd b p bs k with
  | nil =>
    have hbs : bs = [] := by simpa [pushTrace] using htr.symm
    subst hbs
    simp at hk
  | cons m ms ih =>
    cases hpm : M.push b m with
    | error e => simp [pushTrace, hpm] at htr
    | ok b2 =>
      cases ht2 : pushTrace M b2 ms with
      | error e => simp [pushTrace, hpm, ht2] at htr
      | ok rest =>
        have hbs : bs = b2 :: rest := by
          simpa [pushTrace, hpm, ht2] using htr.symm
        subst hbs
        cases k with
        | zero =>
          have hb2 : bk = b2 := by simpa using hk.symm
          subst hb2
          exact ⟨[], by simp [expandMoves, hpm, hc], by simp⟩
        | succ j =>
          have hkj : rest.get? j = some bk := by simpa using hk
          by_cases hc2 : cutoffCond M TB b2 = true
          · exact ⟨[], by simp [expandMoves, hpm, hc2], by simp⟩
          · have hc2f : cutoffCond M TB b2 = false :=
              Bool.eq_false_iff.mpr hc2
            by_cases hw : plyB ≤ p ∧ p < plyE
            · obtain ⟨l2, hl2, hbnd⟩ := ih (epd ++ ' ' :: m) b2 (p + 1) rest j ht2 hkj
              refine ⟨(p, epd ++ ' ' :: m) :: l2, ?_, ?_⟩
              · simp [expandMoves, hpm, hc2f, hw, hl2]
              · intro x hx
                rcases List.mem_cons.mp hx with hx | hx
                · subst hx
                  omega
                · have := hbnd x hx
                  omega
            · by_cases he : plyE ≤ p
              · exact ⟨[], by simp [expandMoves, hpm, hc2f, hw, he], by simp⟩
              · obtain ⟨l2, hl2, hbnd⟩ := ih (epd ++ ' ' :: m) b2 (p + 1) rest j ht2 hkj
                refine ⟨l2, ?_, ?_⟩
                · simp [expandMoves, hpm, hc2f, hw, he, hl2]
                · intro x hx
                  have := hbnd x hx
                  omega

/-- C5: during expansion of a line the endgame-cutoff check precedes the
ply-window membership check at every ply, ply 0 included — if the board at
ply `p` meets the cutoff (tablebase positions not included and at most
`CDB_EGTB` pieces), the line's expansion stops there: it succeeds and adds no
descriptor for ply `p` or any later ply, even inside the window. -/
theorem cutoff_precedes_window (M : BoardModel B) (TB : Bool)
    (plyBegin plyEnd : Option Int) (base : Str) (toks : List Str)
    (b : B) (bs : List B) (p : Nat) (bp : B)
    (h0 : M.ofEpd base = .ok b) (htr : pushTrace M b toks = .ok bs)
    (hp : (b :: bs).get? p = some bp) (hc : cutoffCond M TB bp = true) :
    (expandLineCore M TB plyBegin plyEnd base toks).isOk = true
    ∧ (okList (expandLineCore M TB plyBegin plyEnd base toks)).all
        (fun x => decide (x.1 < p)) = true := by
  set n := toks.length + 1 with hn
  set plyB := clampPly plyBegin 0 n with hB
  set plyE := clampPly plyEnd n n with hE
  cases p with
  | zero =>
    have hb : bp = b := by simpa using hp.symm
    subst hb
    constructor <;> simp [expandLineCore, h0, hc, ← hB, ← hE, ← hn, Except.isOk,
      Except.toBool, okList]
  | succ j =>
    have hkj : bs.get? j = some bp := by simpa using hp
    by_cases hc0 : cutoffCond M TB b = true
    · constructor <;> simp [expandLineCore, h0, hc0, ← hB, ← hE, ← hn, Except.isOk,
        Except.toBool, okList]
    · have hc0f : cutoffCond M TB b = false := Bool.eq_false_iff.mpr hc0
      obtain ⟨l2, hl2, hbnd⟩ :=
        expandMoves_cutoff M TB plyB plyE (base ++ " moves".toList) b 1 toks bs j
          bp htr hkj hc
      have hl2b : expandMoves M TB plyB plyE (base ++ [' ', 'm', 'o', 'v', 'e', 's'])
          b 1 toks = Except.ok l2 := hl2
      by_cases hw : plyB ≤ 0 ∧ 0 < plyE
      · have hb0 : plyB = 0 := Nat.le_zero.mp hw.1
        rw [hb0] at hl2b
        constructor
        · simp [expandLineCore, h0, hc0f, ← hB, ← hE, ← hn, hb0, hw.2, hl2b,
            Except.isOk, Except.toBool]
        · simp only [expandLineCore, h0, hc0f, ← hB, ← hE, ← hn]
          simp [hb0, hw.2, hl2b, okList, List.all_eq_true]
          intro a x hx
          have := hbnd (a, x) hx
          simp at this
          omega
      · by_cases he : plyE ≤ 0
        · have he0 : plyE = 0 := Nat.le_zero.mp he
          constructor <;> simp [expandLineCore, h0, hc0f, ← hB, ← hE, ← hn, he0,
            Except.isOk, Except.toBool, okList]
        · have hnb : ¬plyB = 0 := by omega
          constructor
          · simp [expandLineCore, h0, hc0f, ← hB, ← hE, ← hn, hnb, he, hl2b,
              Except.isOk, Except.toBool]
          · simp only [expandLineCore, h0, hc0f, ← hB, ← hE, ← hn]
            simp [hnb, he, hl2b, okList, List.all_eq_true]
            intro a x hx
            have := hbnd (a, x) hx
            simp at this
            omega

/-- Witness for C5: a two-piece base position meets the cutoff at ply 0, so
even with the window `[0, None)` the line contributes nothing. -/
theorem cutoff_precedes_window_witness :
    (expandLineCore chessModel false (some 0) none
        "8/8/8/8/8/8/8/Kk6 w - -".toList ["a1b1".toList]).isOk = true
    ∧ (okList (expandLineCore chessModel false (some 0) none
        "8/8/8/8/8/8/8/Kk6 w - -".toList ["a1b1".toList])).all
        (fun x => decide (x.1 < 0)) = true :=
  cutoff_precedes_window chessModel false (some 0) none
    "8/8/8/8/8/8/8/Kk6 w - -".toList ["a1b1".toList]
    [(0, 'K'), (1, 'k')] [[(1, 'K')]] 0 [(0, 'K'), (1, 'k')]
    (by decide) (by decide) (by decide) (by decide)

/-! ### Lemmas about the string primitives, towards C6 and C9 -/

/-- Boolean `isPrefixOf` agrees with `<+:`. -/
theorem isPrefixOf_eq_true_iff {l1 l2 : Str} : l1.isPrefixOf l2 = true ↔ l1 <+: l2 :=
  List.isPrefixOf_iff_prefix

/-- A found first occurrence decomposes the string. -/
theorem splitFirst_eq_append {sep s a b2 : Str}
    (h : splitFirst sep s = some (a, b2)) : s = a ++ sep ++ b2 := by
  induction s generalizing a b2 with
  | nil =>
    by_cases hp : sep.isPrefixOf ([] : Str)
    · have hsep : sep = [] := List.prefix_nil.mp (isPrefixOf_eq_true_iff.mp hp)
      simp only [splitFirst, hp, if_true, Option.some_inj, Prod.mk.injEq] at h
      obtain ⟨ha, hb⟩ := h
      subst ha
      subst hb
      simp [hsep]
    · simp [splitFirst, hp] at h
  | cons c cs ih =>
    by_cases hp : sep.isPrefixOf (c :: cs)
    · simp only [splitFirst, hp, if_true, Option.some_inj, Prod.mk.injEq] at h
      obtain ⟨ha, hb⟩ := h
      subst ha
      subst hb
      obtain ⟨t, ht⟩ := isPrefixOf_eq_true_iff.mp hp
      have hdrop : (c :: cs).drop sep.length = t := by
        rw [← ht, List.drop_left]
      rw [hdrop, ← ht]
      simp
    · simp only [splitFirst, hp, if_false, Bool.false_eq_true] at h
      cases hrec : splitFirst sep cs with
      | none => simp [hrec] at h
      | some p =>
        obtain ⟨a1, b1⟩ := p
        simp only [hrec, Option.map_some', Option.some_inj, Prod.mk.injEq] at h
        obtain ⟨ha, hb⟩ := h
        subst ha
        subst hb
        have := ih hrec
        simp [this]

/-- `splitFirst` returns `none` exactly when the separator does not occur. -/
theorem splitFirst_none_iff {sep s : Str} :
    splitFirst sep s = none ↔ ¬ sep <:+: s := by
  induction s with
  | nil =>
    by_cases hp : sep.isPrefixOf ([] : Str)
    · have hsep : sep = [] := List.prefix_nil.mp (isPrefixOf_eq_true_iff.mp hp)
      simp [splitFirst, hp, hsep]
    · have hsep : sep ≠ [] := fun hc => hp (isPrefixOf_eq_true_iff.mpr (by simp [hc]))
      simp [splitFirst, hp, List.infix_nil, hsep]
  | cons c cs ih =>
    by_cases hp : sep.isPrefixOf (c :: cs)
    · have : sep <:+: c :: cs := (isPrefixOf_eq_true_iff.mp hp).isInfix
      simp [splitFirst, hp, this]
    · have hnp : ¬ sep <+: c :: cs := fun hc => hp (isPrefixOf_eq_true_iff.mpr hc)
      cases hrec : splitFirst sep cs with
      | none =>
        have hni := ih.mp hrec
        simp only [splitFirst, hp, if_false, Bool.false_eq_true, hrec, Option.map_none',
          true_iff]
        rw [List.infix_cons_iff]
        simp [hnp, hni]
      | some p =>
        have hocc : ¬ splitFirst sep cs = none := by simp [hrec]
        have hin : sep <:+: cs := by
          by_contra hc
          exact hocc (ih.mpr hc)
        simp [splitFirst, hp, hrec, List.infix_cons_iff, hin]

/-- The piece before the first occurrence contains no occurrence itself. -/
theorem splitFirst_not_in_before {sep s a b2 : Str} (hsep : sep ≠ [])
    (h : splitFirst sep s = some (a, b2)) : ¬ sep <:+: a := by
  induction s generalizing a b2 with
  | nil =>
    by_cases hp : sep.isPrefixOf ([] : Str)
    · exact absurd (List.prefix_nil.mp (isPrefixOf_eq_true_iff.mp hp)) hsep
    · simp [splitFirst, hp] at h
  | cons c cs ih =>
    by_cases hp : sep.isPrefixOf (c :: cs)
    · simp only [splitFirst, hp, if_true, Option.some_inj, Prod.mk.injEq] at h
      obtain ⟨ha, _⟩ := h
      subst ha
      simp [List.infix_nil, hsep]
    · simp only [splitFirst, hp, if_false, Bool.false_eq_true] at h
      cases hrec : splitFirst sep cs with
      | none => simp [hrec] at h
      | some p =>
        obtain ⟨a1, b1⟩ := p
        simp only [hrec, Option.map_some', Option.some_inj, Prod.mk.injEq] at h
        obtain ⟨ha, _⟩ := h
        subst ha
        have hnp : ¬ sep <+: c :: cs := fun hc => hp (isPrefixOf_eq_true_iff.mpr hc)
        have ih1 := ih hrec
        rw [List.infix_cons_iff]
        rintro (hc | hc)
        · have hcs : cs = a1 ++ sep ++ b1 := splitFirst_eq_append hrec
          have h2 : sep <+: (c :: a1) ++ (sep ++ b1) :=
            hc.trans (List.prefix_append (c :: a1) (sep ++ b1))
          have heq : (c :: a1) ++ (sep ++ b1) = c :: cs := by
            simp [hcs, List.append_assoc]
          rw [heq] at h2
          exact hnp h2
        · exact ih1 hc

/-- A space-free infix of `x ++ ' ' :: y` lies entirely in `x` or in `y`. -/
theorem infix_append_cons_space {w x y : Str} (hsp : ' ' ∉ w)
    (h : w <:+: x ++ ' ' :: y) : w <:+: x ∨ w <:+: y := by
  obtain ⟨s, t, hst⟩ := h
  by_cases hA : s.length + w.length ≤ x.length
  · left
    have hx : x = (x ++ ' ' :: y).take x.length := by rw [List.take_left]
    rw [← hst] at hx
    rw [List.append_assoc, List.take_append_eq_append_take,
      List.take_of_length_le (by omega), List.take_append_eq_append_take,
      List.take_of_length_le (by omega)] at hx
    exact ⟨s, _, by simpa [List.append_assoc] using hx.symm⟩
  · by_cases hB : x.length + 1 ≤ s.length
    · right
      have hy : y = (x ++ ' ' :: y).drop (x.length + 1) := by
        rw [List.drop_append_eq_append_drop, List.drop_eq_nil_of_le (by omega)]
        simp
      rw [← hst] at hy
      rw [List.append_assoc, List.drop_append_eq_append_drop] at hy
      have h0 : x.length + 1 - s.length = 0 := by omega
      rw [h0, List.drop_zero] at hy
      exact ⟨s.drop (x.length + 1), t, by simpa [List.append_assoc] using hy.symm⟩
    · exfalso
      have hget := congrArg (fun l => l[x.length]?) hst
      simp only at hget
      have hl : (x ++ ' ' :: y)[x.length]? = some ' ' := by
        rw [List.getElem?_append_right (Nat.le_refl _)]
        simp
      have hr : (s ++ w ++ t)[x.length]? = w[x.length - s.length]? := by
        rw [List.append_assoc, List.getElem?_append_right (by omega),
          List.getElem?_append_left (by omega)]
      rw [hl, hr] at hget
      exact hsp (List.getElem?_mem hget)

/-- Splitting at `" moves"`-style separators: if the space-free core `w` does
not occur in `a`, the first occurrence of `' ' :: w` in `a ++ (' ' :: w) ++ b`
is the explicit middle one. -/
theorem splitFirst_append_boundary {w a b2 : Str} (hsp : ' ' ∉ w)
    (ha : ¬ w <:+: a) :
    splitFirst (' ' :: w) (a ++ (' ' :: w) ++ b2) = some (a, b2) := by
  induction a with
  | nil =>
    have hp : (' ' :: w).isPrefixOf (' ' :: (w ++ b2)) = true :=
      isPrefixOf_eq_true_iff.mpr ⟨b2, by simp⟩
    simp only [List.nil_append, List.cons_append, splitFirst, hp, if_true]
    have hd : (' ' :: (w ++ b2)).drop (' ' :: w).length = b2 := by
      simp only [List.length_cons, List.drop_succ_cons]
      exact List.drop_left w b2
    simp [hd]
  | cons c a1 ih =>
    have ha1 : ¬ w <:+: a1 := fun hc => ha (List.infix_cons hc)
    have hstep : (c :: a1) ++ (' ' :: w) ++ b2 = c :: (a1 ++ (' ' :: w) ++ b2) := by
      simp
    rw [hstep]
    have hp : ¬ (' ' :: w).isPrefixOf (c :: (a1 ++ (' ' :: w) ++ b2)) = true := by
      intro hc
      obtain ⟨_, hc2⟩ := List.cons_prefix_cons.mp (isPrefixOf_eq_true_iff.mp hc)
      have htake := List.prefix_iff_eq_take.mp hc2
      by_cases hlen : w.length ≤ a1.length
      · apply ha1
        rw [List.append_assoc, List.take_append_eq_append_take] at htake
        have h0 : w.length - a1.length = 0 := by omega
        rw [h0, List.take_zero, List.append_nil] at htake
        exact (List.prefix_iff_eq_take.mpr htake).isInfix
      · have h1 : a1.take w.length = a1 := List.take_of_length_le (by omega)
        obtain ⟨k, hk⟩ : ∃ k, w.length - a1.length = k + 1 :=
          ⟨w.length - a1.length - 1, by omega⟩
        rw [List.append_assoc, List.take_append_eq_append_take, h1, List.cons_append,
          hk, List.take_succ_cons] at htake
        exact hsp (by rw [htake]; simp)
    simp only [splitFirst, hp, if_false, Bool.false_eq_true]
    rw [ih ha1]
    simp

/-- A space-free nonempty word occurring in no field occurs nowhere in the
space-joined fields. -/
theorem not_infix_joinSpace {w : Str} {fs : List Str} (hw : w ≠ [])
    (hsp : ' ' ∉ w) (h : ∀ f ∈ fs, ¬ w <:+: f) : ¬ w <:+: joinSpace fs := by
  induction fs with
  | nil => simp [joinSpace, List.infix_nil, hw]
  | cons f fs ih =>
    cases fs with
    | nil => exact h f (by simp)
    | cons f2 fs2 =>
      intro hcon
      rw [show joinSpace (f :: f2 :: fs2) = f ++ ' ' :: joinSpace (f2 :: fs2) from rfl]
        at hcon
      rcases infix_append_cons_space hsp hcon with h1 | h1
      · exact h f (by simp) h1
      · exact ih (fun g hg => h g (by simp [hg])) h1

/-- The first piece of `pySplitWs` on a string starting with a non-whitespace
character: it is nonempty and a prefix of the string. -/
theorem pySplitWs_head_tok : ∀ (d : Char) (cs : Str), d.isWhitespace = false →
    ∃ t ts, pySplitWs (d :: cs) = t :: ts ∧ t <+: d :: cs ∧ t ≠ []
  | d, [], h => ⟨[d], [], by simp [pySplitWs, h], by simp, by simp⟩
  | d, e :: cs, h =>
    if he : e.isWhitespace then
      ⟨[d], pySplitWs (e :: cs), by simp [pySplitWs, h, he],
        ⟨e :: cs, rfl⟩, by simp⟩
    else
      have he2 : e.isWhitespace = false := Bool.eq_false_iff.mpr he
      let ⟨t2, ts2, ht, hpref, _⟩ := pySplitWs_head_tok e cs he2
      ⟨d :: t2, ts2, by simp [pySplitWs, h, he2, ht],
        List.cons_prefix_cons.mpr ⟨rfl, hpref⟩, by simp⟩

/-- Every piece produced by `pySplitWs` occurs contiguously in the string. -/
theorem pySplitWs_mem_within : ∀ (s : Str), ∀ f ∈ pySplitWs s, f <:+: s
  | [], f, hf => by simp [pySplitWs] at hf
  | [c], f, hf => by
    by_cases hc : c.isWhitespace <;> simp [pySplitWs, hc] at hf
    subst hf
    exact List.infix_rfl
  | c :: d :: cs, f, hf => by
    by_cases hc : c.isWhitespace
    · rw [show pySplitWs (c :: d :: cs) = pySplitWs (d :: cs) from by
        simp [pySplitWs, hc]] at hf
      exact List.infix_cons (pySplitWs_mem_within (d :: cs) f hf)
    · have hc2 : c.isWhitespace = false := Bool.eq_false_iff.mpr hc
      by_cases hd : d.isWhitespace
      · rw [show pySplitWs (c :: d :: cs) = [c] :: pySplitWs (d :: cs) from by
          simp [pySplitWs, hc2, hd]] at hf
        rcases List.mem_cons.mp hf with hf | hf
        · subst hf
          exact (List.cons_prefix_cons.mpr ⟨rfl, by simp⟩).isInfix
        · exact List.infix_cons (pySplitWs_mem_within (d :: cs) f hf)
      · have hd2 : d.isWhitespace = false := Bool.eq_false_iff.mpr hd
        obtain ⟨t2, ts2, ht, hpref, _⟩ := pySplitWs_head_tok d cs hd2
        rw [show pySplitWs (c :: d :: cs) = (c :: t2) :: ts2 from by
          simp [pySplitWs, hc2, hd2, ht]] at hf
        rcases List.mem_cons.mp hf with hf | hf
        · subst hf
          exact (List.cons_prefix_cons.mpr ⟨rfl, hpref⟩).isInfix
        · exact List.infix_cons
            (pySplitWs_mem_within (d :: cs) f (by rw [ht]; simp [hf]))

/-- Splitting ignores a leading whitespace character. -/
theorem pySplitWs_cons_ws {c : Char} {x : Str} (h : c.isWhitespace = true) :
    pySplitWs (c :: x) = pySplitWs x := by
  cases x with
  | nil => simp [pySplitWs, h]
  | cons d cs => simp [pySplitWs, h]

/-- Splitting a whitespace-free nonempty token followed by a space-or-nothing
remainder yields the token and the split of the remainder. -/
theorem pySplitWs_token_append : ∀ (t z : Str), t ≠ [] →
    (∀ c ∈ t, c.isWhitespace = false) → (z = [] ∨ ∃ r, z = ' ' :: r) →
    pySplitWs (t ++ z) = t :: pySplitWs z
  | [], _, ht, _, _ => absurd rfl ht
  | [a], z, _, hnw, hz => by
    have ha : a.isWhitespace = false := hnw a (by simp)
    rcases hz with hz | ⟨r, hz⟩
    · subst hz
      simp [pySplitWs, ha]
    · subst hz
      simp [pySplitWs, ha]
  | a :: a2 :: t2, z, _, hnw, hz => by
    have ha : a.isWhitespace = false := hnw a (by simp)
    have ha2 : a2.isWhitespace = false := hnw a2 (by simp)
    have hrec := pySplitWs_token_append (a2 :: t2) z (by simp)
      (fun c hc => hnw c (by simp [List.mem_cons.mp hc])) hz
    have hstep : (a :: a2 :: t2) ++ z = a :: ((a2 :: t2) ++ z) := by simp
    rw [hstep]
    rw [show (a2 :: t2) ++ z = a2 :: (t2 ++ z) from by simp] at hrec ⊢
    simp [pySplitWs, ha, ha2, hrec]

/-- Re-splitting the rendered `" m1 m2 …"` suffix recovers the tokens. -/
theorem pySplitWs_render : ∀ (toks : List Str),
    (∀ t ∈ toks, t ≠ [] ∧ ∀ c ∈ t, c.isWhitespace = false) →
    pySplitWs ((toks.map (fun m => ' ' :: m)).flatten) = toks
  | [], _ => by simp [pySplitWs]
  | t :: ts, h => by
    have hh := h t (by simp)
    have hflat : ((t :: ts).map (fun m => ' ' :: m)).flatten =
        ' ' :: (t ++ (ts.map (fun m => ' ' :: m)).flatten) := by simp
    rw [hflat, pySplitWs_cons_ws (by simp)]
    have hz : (ts.map (fun m => ' ' :: m)).flatten = [] ∨
        ∃ r, (ts.map (fun m => ' ' :: m)).flatten = ' ' :: r := by
      cases ts with
      | nil => exact Or.inl (by simp)
      | cons u us => exact Or.inr ⟨u ++ (us.map (fun m => ' ' :: m)).flatten, by simp⟩
    rw [pySplitWs_token_append t _ hh.1 hh.2 hz]
    rw [pySplitWs_render ts (fun u hu => h u (by simp [hu]))]

/-- A token passing the move-token check is nonempty, whitespace-free and
`m`-free (its characters are file letters, rank digits or promotion pieces). -/
theorem validToken_chars {t : Str} (h : isBadMoveToken t = false) :
    t ≠ [] ∧ ∀ c ∈ t, c.isWhitespace = false ∧ c ≠ 'm' := by
  match t with
  | [] => simp [isBadMoveToken] at h
  | [_] => simp [isBadMoveToken] at h
  | [_, _] => simp [isBadMoveToken] at h
  | [_, _, _] => simp [isBadMoveToken] at h
  | a :: b :: c :: d :: rest =>
    match rest with
    | [] =>
      simp only [isBadMoveToken, Bool.or_eq_false_iff, Bool.not_eq_false'] at h
      obtain ⟨⟨⟨⟨ha, hc⟩, hb⟩, hd⟩, -⟩ := h
      have hfile : ∀ x : Char, x ∈ "abcdefgh".toList →
          x.isWhitespace = false ∧ x ≠ 'm' := by
        intro x hx
        fin_cases hx <;> decide
      have hrank : ∀ x : Char, x ∈ "12345678".toList →
          x.isWhitespace = false ∧ x ≠ 'm' := by
        intro x hx
        fin_cases hx <;> decide
      refine ⟨by simp, ?_⟩
      intro x hx
      simp only [List.mem_cons, List.not_mem_nil, or_false] at hx
      rcases hx with rfl | rfl | rfl | rfl
      · exact hfile x (by simpa [List.contains] using ha)
      · exact hrank x (by simpa [List.contains] using hb)
      · exact hfile x (by simpa [List.contains] using hc)
      · exact hrank x (by simpa [List.contains] using hd)
    | [p] =>
      simp only [isBadMoveToken, Bool.or_eq_false_iff, Bool.not_eq_false'] at h
      obtain ⟨⟨⟨⟨ha, hc⟩, hb⟩, hd⟩, hp⟩ := h
      have hfile : ∀ x : Char, x ∈ "abcdefgh".toList →
          x.isWhitespace = false ∧ x ≠ 'm' := by
        intro x hx
        fin_cases hx <;> decide
      have hrank : ∀ x : Char, x ∈ "12345678".toList →
          x.isWhitespace = false ∧ x ≠ 'm' := by
        intro x hx
        fin_cases hx <;> decide
      have hpromo : ∀ x : Char, x ∈ "qrbn".toList →
          x.isWhitespace = false ∧ x ≠ 'm' := by
        intro x hx
        fin_cases hx <;> decide
      refine ⟨by simp, ?_⟩
      intro x hx
      simp only [List.mem_cons, List.not_mem_nil, or_false] at hx
      rcases hx with rfl | rfl | rfl | rfl | rfl
      · exact hfile x (by simpa [List.contains] using ha)
      · exact hrank x (by simpa [List.contains] using hb)
      · exact hfile x (by simpa [List.contains] using hc)
      · exact hrank x (by simpa [List.contains] using hd)
      · exact hpromo x (by simpa [List.contains] using hp)
    | _ :: _ :: _ => simp [isBadMoveToken] at h

/-- Structure of a `load_epdlist` entry: it renders a base (which contains no
occurrence of `moves`) followed by the valid prefix of its split move
tokens. -/
theorem processLine_shape {line entry : Str} (h : processLine line = some entry) :
    ∃ (base : Str) (ms : List Str),
      entry = renderEntry base (ms.takeWhile (fun m => !isBadMoveToken m))
      ∧ ¬ "moves".toList <:+: base := by
  simp only [processLine] at h
  split at h
  · exact absurd h (by simp)
  · split at h
    · exact absurd h (by simp)
    · simp only [Option.some_inj] at h
      set line2 := replaceStartpos (STARTING_FEN.take (STARTING_FEN.length - 3))
        ((pyStrip line).takeWhile (fun c => c ≠ ';')) with hline2
      set parts := pyPartition line2 "moves".toList with hparts
      have hpre : ¬ "moves".toList <:+: parts.1 := by
        rw [hparts, pyPartition]
        cases hsf : splitFirst "moves".toList line2 with
        | none => simpa using splitFirst_none_iff.mp hsf
        | some p =>
          obtain ⟨a1, b1⟩ := p
          simpa using splitFirst_not_in_before (by simp) hsf
      refine ⟨_, pySplitWs parts.2.2, h.symm, ?_⟩

      apply not_infix_joinSpace (by simp) (by decide)
      intro f hf
      have hf2 : f ∈ pySplitWs parts.1 := by
        split at hf
        · exact List.mem_of_mem_take (List.mem_of_mem_take hf)
        · exact List.mem_of_mem_take hf
      intro hcon
      exact hpre (hcon.trans (pySplitWs_mem_within parts.1 f hf2))

/-- Re-parsing a rendered entry at `" moves"` recovers its base and tokens. -/
theorem renderEntry_parts {base : Str} {toks : List Str}
    (hb : ¬ "moves".toList <:+: base)
    (hv : ∀ t ∈ toks, t ≠ [] ∧ ∀ c ∈ t, c.isWhitespace = false) :
    (pyPartition (renderEntry base toks) " moves".toList).1 = base
    ∧ pySplitWs (pyPartition (renderEntry base toks) " moves".toList).2.2 = toks := by
  have hbsp : ¬ " moves".toList <:+: base := by
    intro hc
    have h1 : "moves".toList <:+: " moves".toList := ⟨[' '], [], rfl⟩
    exact hb (List.IsInfix.trans h1 hc)
  cases htoks : toks with
  | nil =>
    have hnone : splitFirst " moves".toList base = none := splitFirst_none_iff.mpr hbsp
    have hnone2 : splitFirst [' ', 'm', 'o', 'v', 'e', 's'] base = none := hnone
    simp [renderEntry, pyPartition, hnone2, pySplitWs]
  | cons t ts =>
    rw [← htoks]
    have hne : toks ≠ [] := by simp [htoks]
    have hrender : renderEntry base toks =
        base ++ (' ' :: "moves".toList) ++ (toks.map (fun m => ' ' :: m)).flatten := by
      simp [renderEntry, hne, movesSuffix]
    have hsf := @splitFirst_append_boundary "moves".toList base
      ((toks.map (fun m => ' ' :: m)).flatten) (by decide) hb
    rw [← hrender] at hsf
    have hsep : (' ' :: "moves".toList) = " moves".toList := by decide
    rw [hsep] at hsf
    rw [pyPartition, hsf]
    exact ⟨rfl, pySplitWs_render toks hv⟩

/-- Expanding a rendered entry is expanding its base and tokens. -/
theorem expandLine_entry (M : BoardModel B) (TB : Bool) (pB pE : Option Int)
    {base : Str} {toks : List Str} (hb : ¬ "moves".toList <:+: base)
    (hv : ∀ t ∈ toks, t ≠ [] ∧ ∀ c ∈ t, c.isWhitespace = false) :
    expandLine M TB pB pE (renderEntry base toks) =
      expandLineCore M TB pB pE base toks := by
  obtain ⟨h1, h2⟩ := renderEntry_parts hb hv
  rw [expandLine, h1, h2]

/-- Every descriptor produced by the move loop extends the incoming descriptor
by a nonempty prefix of the remaining moves. -/
theorem expandMoves_desc_shape (M : BoardModel B) (TB : Bool) (plyB plyE : Nat) :
    ∀ (epd : Str) (b : B) (p : Nat) (ms : List Str) (l : List (Nat × Str)),
      expandMoves M TB plyB plyE epd b p ms = .ok l →
      ∀ x ∈ l, ∃ i, 1 ≤ i ∧ i ≤ ms.length ∧
        x.2 = epd ++ ((ms.take i).map (fun m => ' ' :: m)).flatten := by
  intro epd b p ms
  induction ms generalizing epd b p with
  | nil =>
    intro l hl x hx
    simp only [expandMoves, Except.ok.injEq] at hl
    subst hl
    simp at hx
  | cons m ms ih =>
    intro l hl x hx
    rw [expandMoves] at hl
    cases hpm : M.push b m with
    | error e => simp [hpm] at hl
    | ok b2 =>
      rw [hpm] at hl
      simp only at hl
      by_cases hc2 : cutoffCond M TB b2 = true
      · simp only [hc2, if_true, Except.ok.injEq] at hl
        subst hl
        simp at hx
      · have hc2f : cutoffCond M TB b2 = false := Bool.eq_false_iff.mpr hc2
        simp only [hc2f, Bool.false_eq_true, if_false] at hl
        by_cases hw : plyB ≤ p ∧ p < plyE
        · rw [if_pos hw] at hl
          cases hrec : expandMoves M TB plyB plyE (epd ++ ' ' :: m) b2 (p + 1) ms with
          | error e => simp [hrec] at hl
          | ok rest =>
            rw [hrec] at hl
            simp only [Except.ok.injEq] at hl
            subst hl
            rcases List.mem_cons.mp hx with hx | hx
            · subst hx
              exact ⟨1, Nat.le_refl 1, by simp, by simp⟩
            · obtain ⟨i, hi1, hi2, hival⟩ := ih (epd ++ ' ' :: m) b2 (p + 1) rest hrec x hx
              refine ⟨i + 1, by omega, by simp; omega, ?_⟩
              simp only [List.take_succ_cons, List.map_cons, List.flatten_cons, hival]
              simp
        · rw [if_neg hw] at hl
          by_cases he : plyE ≤ p
          · rw [if_pos he] at hl
            simp only [Except.ok.injEq] at hl
            subst hl
            simp at hx
          · rw [if_neg he] at hl
            obtain ⟨i, hi1, hi2, hival⟩ := ih (epd ++ ' ' :: m) b2 (p + 1) l hl x hx
            refine ⟨i + 1, by omega, by simp; omega, ?_⟩
            simp only [List.take_succ_cons, List.map_cons, List.flatten_cons, hival]
            simp

/-- Every descriptor a line adds is the rendering of its base with a prefix of
its move tokens. -/
theorem expandLineCore_desc_shape (M : BoardModel B) (TB : Bool)
    (pB pE : Option Int) (base : Str) (toks : List Str) (l : List (Nat × Str))
    (hl : expandLineCore M TB pB pE base toks = .ok l) :
    ∀ x ∈ l, ∃ i, i ≤ toks.length ∧ x.2 = renderEntry base (toks.take i) := by
  intro x hx
  rw [expandLineCore] at hl
  cases h0 : M.ofEpd base with
  | error e => simp [h0] at hl
  | ok b =>
    rw [h0] at hl
    simp only at hl
    by_cases hc0 : cutoffCond M TB b = true
    · simp only [hc0, if_true, Except.ok.injEq] at hl
      subst hl
      simp at hx
    · have hc0f : cutoffCond M TB b = false := Bool.eq_false_iff.mpr hc0
      simp only [hc0f, Bool.false_eq_true, if_false] at hl
      have hmoves : ∀ (rest : List (Nat × Str)),
          expandMoves M TB (clampPly pB 0 (toks.length + 1))
            (clampPly pE (toks.length + 1) (toks.length + 1))
            (base ++ " moves".toList) b 1 toks = .ok rest →
          x ∈ rest → ∃ i, i ≤ toks.length ∧ x.2 = renderEntry base (toks.take i) := by
        intro rest hrest hxr
        obtain ⟨i, hi1, hi2, hival⟩ := expandMoves_desc_shape M TB _ _
          (base ++ " moves".toList) b 1 toks rest hrest x hxr
        refine ⟨i, hi2, ?_⟩
        have htake : toks.take i ≠ [] := by
          intro hc
          have hlen2 := congrArg List.length hc
          rw [List.length_take, List.length_nil] at hlen2
          omega
        simp only [renderEntry, htake, if_false, movesSuffix, hival]
        simp
      by_cases hw : clampPly pB 0 (toks.length + 1) ≤ 0 ∧
          0 < clampPly pE (toks.length + 1) (toks.length + 1)
      · rw [if_pos hw] at hl
        cases hrec : expandMoves M TB (clampPly pB 0 (toks.length + 1))
            (clampPly pE (toks.length + 1) (toks.length + 1))
            (base ++ " moves".toList) b 1 toks with
        | error e => rw [hrec] at hl; simp at hl
        | ok rest =>
          rw [hrec] at hl
          simp only [Except.ok.injEq] at hl
          subst hl
          rcases List.mem_cons.mp hx with hx | hx
          · subst hx
            exact ⟨0, by omega, by simp [renderEntry]⟩
          · exact hmoves rest hrec hx
      · rw [if_neg hw] at hl
        by_cases he : clampPly pE (toks.length + 1) (toks.length + 1) ≤ 0
        · rw [if_pos he] at hl
          simp only [Except.ok.injEq] at hl
          subst hl
          simp at hx
        · rw [if_neg he] at hl
          exact hmoves l hl hx

/-- Every collected descriptor comes from the expansion of some entry. -/
theorem expandAll_mem (M : BoardModel B) (TB : Bool) (pB pE : Option Int) :
    ∀ (es : List Str) (L : List (Nat × Str)),
      expandAll M TB pB pE es = .ok L →
      ∀ x ∈ L, ∃ e ∈ es, ∃ le, expandLine M TB pB pE e = .ok le ∧ x ∈ le := by
  intro es
  induction es with
  | nil =>
    intro L hL x hx
    simp only [expandAll, Except.ok.injEq] at hL
    subst hL
    simp at hx
  | cons e es ih =>
    intro L hL x hx
    rw [expandAll] at hL
    cases h1 : expandLine M TB pB pE e with
    | error err => simp [h1] at hL
    | ok le =>
      rw [h1] at hL
      cases h2 : expandAll M TB pB pE es with
      | error err => simp [h2] at hL
      | ok rest =>
        rw [h2] at hL
        simp only [Except.ok.injEq] at hL
        subst hL
        rcases List.mem_append.mp hx with hx | hx
        · exact ⟨e, by simp, le, h1, hx⟩
        · obtain ⟨e2, he2, le2, hle2, hx2⟩ := ih rest h2 x hx
          exact ⟨e2, by simp [he2], le2, hle2, hx2⟩

/-- Tokens of every descriptor collected from normalized entries are valid. -/
theorem expandAll_tokens_valid (M : BoardModel B) (TB : Bool) (pB pE : Option Int)
    (es : List Str) (hes : ∀ e ∈ es, ∃ line, processLine line = some e)
    (contribs : List (Nat × Str)) (h : expandAll M TB pB pE es = .ok contribs) :
    ∀ x ∈ contribs, (pySplitWs (pyPartition x.2 " moves".toList).2.2).all
      (fun t => !isBadMoveToken t) = true := by
  intro x hx
  obtain ⟨e, he, le, hle, hxle⟩ := expandAll_mem M TB pB pE es contribs h x hx
  obtain ⟨line, hline⟩ := hes e he
  obtain ⟨base, ms, hshape, hbase⟩ := processLine_shape hline
  subst hshape
  set toks := ms.takeWhile (fun m => !isBadMoveToken m) with htoks
  have hv : ∀ t ∈ toks, isBadMoveToken t = false := by
    intro t ht
    have := List.mem_takeWhile_imp ht
    simpa using this
  have hv2 : ∀ t ∈ toks, t ≠ [] ∧ ∀ c ∈ t, c.isWhitespace = false := by
    intro t ht
    refine ⟨(validToken_chars (hv t ht)).1, fun c hc => ?_⟩
    exact ((validToken_chars (hv t ht)).2 c hc).1
  rw [expandLine_entry M TB pB pE hbase hv2] at hle
  obtain ⟨i, _, hx2⟩ := expandLineCore_desc_shape M TB pB pE base toks le hle x hxle
  have hv2i : ∀ t ∈ toks.take i, t ≠ [] ∧ ∀ c ∈ t, c.isWhitespace = false :=
    fun t ht => hv2 t (List.mem_of_mem_take ht)
  obtain ⟨-, hp2⟩ := renderEntry_parts hbase hv2i
  rw [hx2, hp2, List.all_eq_true]
  intro t ht
  have := hv t (List.mem_of_mem_take ht)
  simp [this]

/-- C6: for every position-list input, every descriptor in the extracted set
satisfies the move-token validity rule — each token after its `" moves"`
separator is 4 or 5 characters with file letters `a`–`h`, rank digits `1`–`8`
and a promotion character from the fixed set; normalization truncated each
line's move list at the first violating token, so no invalid token survives
into any descriptor. -/
theorem extracted_tokens_valid (M : BoardModel B) (TB : Bool)
    (pB pE : Option Int) (lines : List Str) (excl : Option (List Str))
    (l : List Str) (h : load_epds M lines excl pB pE TB = .ok l) :
    l.all (fun d => (pySplitWs (pyPartition d " moves".toList).2.2).all
      (fun t => !isBadMoveToken t)) = true := by
  rw [List.all_eq_true]
  intro d hd
  cases excl with
  | none =>
    simp only [load_epds] at h
    cases hexp : expandAll M TB pB pE (load_epdlist lines) with
    | error err => rw [hexp] at h; simp at h
    | ok contribs =>
      rw [hexp] at h
      simp only [Except.ok.injEq] at h
      subst h
      have hd2 : d ∈ contribs.map Prod.snd := List.mem_dedup.mp hd
      obtain ⟨x, hxc, hxd⟩ := List.mem_map.mp hd2
      have hval := expandAll_tokens_valid M TB pB pE (load_epdlist lines)
        (fun e he => by
          obtain ⟨line, -, hline⟩ := List.mem_filterMap.mp he
          exact ⟨line, hline⟩)
        contribs hexp x hxc
      rw [← hxd]
      exact hval
  | some ex =>
    simp only [load_epds] at h
    cases hexp : expandAll M TB pB pE
        ((load_epdlist lines).dedup.filter (fun e => e ∉ load_epdlist ex)) with
    | error err => rw [hexp] at h; simp at h
    | ok contribs =>
      rw [hexp] at h
      simp only [Except.ok.injEq] at h
      subst h
      have hd2 : d ∈ contribs.map Prod.snd := List.mem_dedup.mp hd
      obtain ⟨x, hxc, hxd⟩ := List.mem_map.mp hd2
      have hval := expandAll_tokens_valid M TB pB pE _
        (fun e he => by
          have he2 : e ∈ (load_epdlist lines).dedup := (List.mem_filter.mp he).1
          obtain ⟨line, -, hline⟩ := List.mem_filterMap.mp (List.mem_dedup.mp he2)
          exact ⟨line, hline⟩)
        contribs hexp x hxc
      rw [← hxd]
      exact hval

/-- Witness for C6: the concrete `startpos moves e2e4 e7e5` extraction has
only valid move tokens in every descriptor. -/
theorem extracted_tokens_valid_witness :
    ([startFen4, startFen4 ++ " moves e2e4".toList,
        startFen4 ++ " moves e2e4 e7e5".toList] : List Str).all
      (fun d => (pySplitWs (pyPartition d " moves".toList).2.2).all
        (fun t => !isBadMoveToken t)) = true :=
  extracted_tokens_valid chessModel false (some 0) none
    ["startpos moves e2e4 e7e5".toList] none
    [startFen4, startFen4 ++ " moves e2e4".toList,
      startFen4 ++ " moves e2e4 e7e5".toList] (by decide)

/-- C9 counterexample: the position-list line `not a fen` — whose base
position fields do not form a valid position — survives normalization
unchanged and then makes the load raise inside board construction, so a
malformed line can abort the load (fatally, on a first load). -/
theorem malformed_line_raises_counterexample :
    (load_epds chessModel ["not a fen".toList] none (some (-1)) none false).isOk
      = false
    ∧ load_epdlist ["not a fen".toList] = ["not a fen".toList] := by
  refine ⟨by decide, by decide⟩

/-- C9 (amended): an individual malformed move token is silently dropped
during normalization — every loaded entry carries only tokens passing the
validity check, the remainder of the line's move list being truncated at the
first bad token, and normalization itself never fails — but a line whose base
position fields do not form a valid position is not skipped: it reaches the
chess engine during expansion and makes the load raise. -/
theorem malformed_line_raises_amended :
    (∀ (lines : List Str),
      (load_epdlist lines).all
        (fun entry => (pySplitWs (pyPartition entry " moves".toList).2.2).all
          (fun t => !isBadMoveToken t)) = true)
    ∧ load_epdlist ["startpos moves e2e4 x9x9 e7e5".toList] =
        [startFen4 ++ " moves e2e4".toList] := by
  constructor
  · intro lines
    rw [List.all_eq_true]
    intro entry hentry
    obtain ⟨line, -, hline⟩ := List.mem_filterMap.mp hentry
    obtain ⟨base, ms, hshape, hbase⟩ := processLine_shape hline
    subst hshape
    set toks := ms.takeWhile (fun m => !isBadMoveToken m) with htoks
    have hv : ∀ t ∈ toks, isBadMoveToken t = false := by
      intro t ht
      have := List.mem_takeWhile_imp ht
      simpa using this
    have hv2 : ∀ t ∈ toks, t ≠ [] ∧ ∀ c ∈ t, c.isWhitespace = false := by
      intro t ht
      refine ⟨(validToken_chars (hv t ht)).1, fun c hc => ?_⟩
      exact ((validToken_chars (hv t ht)).2 c hc).1
    obtain ⟨-, hp2⟩ := renderEntry_parts hbase hv2
    rw [hp2, List.all_eq_true]
    intro t ht
    simp [hv t ht]
  · decide

end CdbBulk
